import Mathlib

/-
Verification of the reactor core of `src/proxy.rs` (mtproxy).

The embedding translates `Server` and its methods (`new`/`secret`,
`accept`, `dispatch`, `drop_zombies`, `drop_pump`, `fan_out`, `fan_in`)
into pure Lean functions.  Machine effects are made explicit:

* the `Slab<RefCell<Pump>>` becomes a `List (Option Pump)` of slots
  (a slot is `none` when vacant); `Slab::remove` on a vacant slot
  panics, so the embedded `drop_pump` returns `Option Server`, with
  `none` standing for a process panic;
* the `mio::Poll` registration state becomes the `registered` list;
* the `HashMap<Token, Token>` of links becomes an association list
  with first-match lookup;
* the `HashSet<Token>` zombie set becomes a duplicate-free list;
* the engine (`pump` module, external to the given sources) is
  modelled from the spec: `pull` removes and returns the bytes
  ready for the peer, `push` appends bytes to the outbound send
  buffer; drain/flush outcomes and accepted sockets arrive as
  explicit per-event environment inputs.
-/

/-- One connection endpoint of the engine.  Modelled from the spec:
`pull` returns and empties `outBuf` (bytes ready for the peer), `push`
appends to `sendBuf` (own outbound buffer), `interestR`/`interestW` is
the declared readiness interest. -/
structure Pump where
  outBuf : List Nat
  sendBuf : List Nat
  interestR : Bool
  interestW : Bool
deriving DecidableEq

/-- Slot array standing for `Slab<RefCell<Pump>>`: `none` is a vacant slot. -/
abbrev Slots := List (Option Pump)

/-- Occupied-slot count, i.e. `Slab::len`. -/
def slabLen (ps : Slots) : Nat := (ps.filter Option.isSome).length

/-- Lookup of an occupied slot, i.e. `Slab::get` composed with the slot's
occupancy: returns `none` for an out-of-range or vacant slot. -/
def slabGet (ps : Slots) (i : Nat) : Option Pump := (ps.getD i none)

/-- Insertion into the lowest free slot (appending when full), returning the
new slot array and the chosen key, i.e. `Slab::insert`. -/
def slabInsert : Slots → Pump → Slots × Nat
  | [], p => ([some p], 0)
  | none :: rest, p => (some p :: rest, 0)
  | some q :: rest, p =>
    let r := slabInsert rest p
    (some q :: r.1, r.2 + 1)

/-- Vacating a slot, i.e. `Slab::remove`; `none` models the panic the slab
raises when the slot is already vacant. -/
def slabRemove (ps : Slots) (i : Nat) : Option Slots :=
  match slabGet ps i with
  | some _ => some (ps.set i none)
  | none => none

/-- In-place update of an occupied slot (a `RefCell::borrow_mut` write-back). -/
def modifySlot (ps : Slots) (i : Nat) (f : Pump → Pump) : Slots :=
  match slabGet ps i with
  | some p => ps.set i (some (f p))
  | none => ps

/-- First-match lookup in the link table, i.e. `HashMap::get`. -/
def getL : List (Nat × Nat) → Nat → Option Nat
  | [], _ => none
  | (k, v) :: rest, a => if k = a then some v else getL rest a

/-- Removal of a key from the link table, i.e. `HashMap::remove`. -/
def eraseKey (l : List (Nat × Nat)) (k : Nat) : List (Nat × Nat) :=
  l.filter (fun p => p.1 ≠ k)

/-- Key insertion (replacing any previous binding), i.e. `HashMap::insert`. -/
def insertL (l : List (Nat × Nat)) (k v : Nat) : List (Nat × Nat) :=
  (k, v) :: eraseKey l k

/-- Duplicate-free insertion, i.e. `HashSet::insert`. -/
def setInsert (l : List Nat) (t : Nat) : List Nat :=
  if t ∈ l then l else l ++ [t]

/-- The reactor state of `Server` (proxy.rs).  `registered` stands for the
set of tokens currently registered with the poll; `dropLog` is ghost
instrumentation recording each `drop_pump` invocation (the `dropping pump`
log line), used to observe how often a token is dropped. -/
structure Server where
  secret : List Nat
  pumps : Slots
  zombie : List Nat
  links : List (Nat × Nat)
  registered : List Nat
  dropLog : List Nat
deriving DecidableEq

/-- `const MAX_PUMPS: usize = 2048`. -/
def MAX_PUMPS : Nat := 2048

/-- `const ROOT_TOKEN: Token = Token(usize::MAX - 1)`. -/
def ROOT_TOKEN : Nat := 2 ^ 64 - 2

namespace Server

/-- `Server::accept` (proxy.rs:60).  The environment input `conn` is the
outcome of `self.sock.accept()`: `none` when the raw accept failed.  The
capacity guard `self.pumps.len() > MAX_PUMPS` precedes the raw accept; both
refusal paths log and return without touching any state. -/
def accept (s : Server) (conn : Option Pump) : Server :=
  if MAX_PUMPS < slabLen s.pumps then s
  else
    match conn with
    | none => s
    | some p =>
      let r := slabInsert s.pumps p
      { s with pumps := r.1, registered := setInsert s.registered r.2 }

/-- `Server::fan_out` (proxy.rs:239).  `t` is the draining endpoint (held
mutably borrowed by the caller), `peer` its link target.  `none` models the
two panic paths: the `unwrap` on an absent peer slot and the `RefCell`
double borrow when `peer` is the borrowed token itself. -/
def fan_out (s : Server) (t peer : Nat) : Option (Server × Bool) :=
  match slabGet s.pumps t with
  | none => none
  | some p =>
    let buf := p.outBuf
    let s1 := { s with pumps := modifySlot s.pumps t (fun q => { q with outBuf := [] }) }
    if buf = [] then some (s1, false)
    else if t = peer then none
    else
      match slabGet s1.pumps peer with
      | none => none
      | some _ =>
        let s2 := { s1 with
          pumps := modifySlot s1.pumps peer (fun q => { q with sendBuf := q.sendBuf ++ buf }) }
        some ({ s2 with registered := setInsert s2.registered peer }, true)

/-- `Server::fan_in` (proxy.rs:260).  The peer's slot is unwrapped and
borrowed before its buffer is pulled, so an absent peer slot or
`peer = t` panics (`none`) even when nothing is buffered. -/
def fan_in (s : Server) (t peer : Nat) : Option (Server × Bool) :=
  match slabGet s.pumps peer with
  | none => none
  | some q =>
    if t = peer then none
    else
      let buf := q.outBuf
      let s1 := { s with pumps := modifySlot s.pumps peer (fun r => { r with outBuf := [] }) }
      if buf = [] then some (s1, false)
      else
        let s2 := { s1 with
          pumps := modifySlot s1.pumps t (fun p => { p with sendBuf := p.sendBuf ++ buf }) }
        some ({ s2 with registered := setInsert s2.registered peer }, true)

/-- `Server::drop_pump` (proxy.rs:221).  `self.pumps.remove(token.0)`
panics when the slot is vacant (`none`); otherwise the socket is
deregistered, and when the token held a link both directions are removed
and the peer is zombified. -/
def drop_pump (s : Server) (t : Nat) : Option Server :=
  match slabRemove s.pumps t with
  | none => none
  | some ps =>
    let s1 := { s with
      pumps := ps
      registered := s.registered.erase t
      dropLog := s.dropLog ++ [t] }
    match getL s1.links t with
    | some peer =>
      some { s1 with
        links := eraseKey (eraseKey s1.links t) peer
        zombie := setInsert s1.zombie peer }
    | none => some { s1 with links := eraseKey s1.links t }

/-- `Server::drop_zombies` (proxy.rs:206): snapshot the zombie set, clear
it, then drop every snapshotted token. -/
def drop_zombies (s : Server) : Option Server :=
  if s.zombie = [] then some s
  else
    let snapshot := s.zombie
    List.foldlM drop_pump { s with zombie := [] } snapshot

end Server

/-- One readiness event together with the engine/environment outcomes its
handling consumes: `accepted` is the raw-accept outcome for the listener
token; `drained` the bytes the drain loop produced into the endpoint's
buffer; `spawn` the peer endpoint a successful drain yielded, if any;
`drainFatal`/`flushFatal` whether the drain/flush loop ended in a fatal
error rather than would-block. -/
structure Ev where
  token : Nat
  readable : Bool := false
  writable : Bool := false
  hup : Bool := false
  err : Bool := false
  accepted : Option Pump := none
  spawn : Option Pump := none
  drained : List Nat := []
  drainFatal : Bool := false
  flushFatal : Bool := false
deriving DecidableEq

/-- The per-batch accumulators of `Server::dispatch`: the stale set, the
pending-peer map keyed by initiating token, and (ghost) the log of
`poll.reregister` calls made on events' own tokens. -/
structure Batch where
  stale : List Nat
  newPeers : List (Nat × Pump)
  rereg : List Nat
deriving DecidableEq

/-- The empty per-batch accumulator. -/
def Batch.empty : Batch := ⟨[], [], []⟩

/-- `new_peers.insert(token, peer_pump)`: key-replacing insertion. -/
def npInsert (l : List (Nat × Pump)) (k : Nat) (p : Pump) : List (Nat × Pump) :=
  l.filter (fun q => q.1 ≠ k) ++ [(k, p)]

namespace Server

/-- The stale marking `stale.insert(token)` performed when a drain or
flush loop ends in a fatal error (or on hangup/error readiness). -/
def staleMark (acc : Batch) (t : Nat) (fatal : Bool) : Batch :=
  if fatal then { acc with stale := setInsert acc.stale t } else acc

/-- The pending-peer recording `new_peers.insert(token, peer_pump)`
performed when a drain yields a spawned peer. -/
def spawnMark (acc : Batch) (t : Nat) : Option Pump → Batch
  | some p => { acc with newPeers := npInsert acc.newPeers t p }
  | none => acc

/-- The readable branch of the event loop of `Server::dispatch`
(proxy.rs:123-146): the drain loop deposits `ev.drained` into the
endpoint's buffer, records a spawned peer into the pending-peer map,
marks the token stale on a fatal drain error, and finally fans out to the
linked peer if any. -/
def readStep (s : Server) (acc : Batch) (ev : Ev) : Option (Server × Batch) :=
  if ev.readable then
    let s1 := { s with
      pumps := modifySlot s.pumps ev.token
        (fun p => { p with outBuf := p.outBuf ++ ev.drained }) }
    let acc2 := staleMark (spawnMark acc ev.token ev.spawn) ev.token ev.drainFatal
    match getL s1.links ev.token with
    | some peer => (s1.fan_out ev.token peer).map (fun fo => (fo.1, acc2))
    | none => some (s1, acc2)
  else some (s, acc)

/-- The writable branch of the event loop of `Server::dispatch`
(proxy.rs:148-166): fan in from the linked peer first, then the flush
loop, whose fatal error marks the token stale. -/
def writeStep (s : Server) (acc : Batch) (ev : Ev) : Option (Server × Batch) :=
  if ev.writable then
    (match getL s.links ev.token with
      | some peer => (s.fan_in ev.token peer).map Prod.fst
      | none => some s).map
      (fun s2 => (s2, staleMark acc ev.token ev.flushFatal))
  else some (s, acc)

/-- The tail of the event loop of `Server::dispatch` (proxy.rs:168-177):
hangup/error readiness marks the token stale, otherwise the endpoint is
re-registered (edge-triggered, one-shot). -/
def hupStep (s : Server) (acc : Batch) (ev : Ev) : Server × Batch :=
  if ev.hup || ev.err then (s, { acc with stale := setInsert acc.stale ev.token })
  else ({ s with registered := setInsert s.registered ev.token },
    { acc with rereg := acc.rereg ++ [ev.token] })

/-- The body of the event loop of `Server::dispatch` (proxy.rs:101-178) for
one event: listener events run `accept`; a token absent from the slab is a
logged no-op; otherwise the readable branch, the writable branch and the
hangup/re-registration tail run in order. -/
def scanEvent (sa : Server × Batch) (ev : Ev) : Option (Server × Batch) :=
  if ev.token = ROOT_TOKEN then some (sa.1.accept ev.accepted, sa.2)
  else
    match slabGet sa.1.pumps ev.token with
    | none => some sa
    | some _ => do
      let r1 ← readStep sa.1 sa.2 ev
      let r2 ← writeStep r1.1 r1.2 ev
      some (hupStep r2.1 r2.2 ev)

/-- The event scan of `Server::dispatch` over a whole batch. -/
def scanBatch (s : Server) (evs : List Ev) : Option (Server × Batch) :=
  List.foldlM scanEvent (s, Batch.empty) evs

/-- One iteration of the pending-peer loop of `Server::dispatch`
(proxy.rs:180-195): insert the pending peer into the slab, establish the
symmetric link with its initiating token, and register it. -/
def insertPeer (s : Server) (op : Nat × Pump) : Server :=
  let r := slabInsert s.pumps op.2
  { s with
    pumps := r.1
    links := insertL (insertL s.links r.2 op.1) op.1 r.2
    registered := setInsert s.registered r.2 }

/-- The pending-peer loop of `Server::dispatch` (proxy.rs:180-195). -/
def insertPeers (s : Server) (nps : List (Nat × Pump)) : Server :=
  nps.foldl insertPeer s

/-- `Server::dispatch` (proxy.rs:96): the event scan, then pending-peer
insertion, then the zombie drain, then removal of the stale set. -/
def dispatch (s : Server) (evs : List Ev) : Option Server := do
  let r ← scanBatch s evs
  let s1 := insertPeers r.1 r.2.newPeers
  let s2 ← s1.drop_zombies
  List.foldlM drop_pump s2 r.2.stale

end Server

/-
SHA-256 (FIPS 180-4), the digest `Server::new` computes over the seed via
the external `crypto` crate.  Words are `Nat` reduced mod 2^32.
-/

def w32 (n : Nat) : Nat := n % 4294967296

def rotr (k x : Nat) : Nat := (x >>> k) ||| ((x % 2 ^ k) <<< (32 - k))

def shaCh (x y z : Nat) : Nat := (x &&& y) ^^^ ((x ^^^ 4294967295) &&& z)

def shaMaj (x y z : Nat) : Nat := (x &&& y) ^^^ (x &&& z) ^^^ (y &&& z)

def bigSigma0 (x : Nat) : Nat := rotr 2 x ^^^ rotr 13 x ^^^ rotr 22 x

def bigSigma1 (x : Nat) : Nat := rotr 6 x ^^^ rotr 11 x ^^^ rotr 25 x

def smallSigma0 (x : Nat) : Nat := rotr 7 x ^^^ rotr 18 x ^^^ (x >>> 3)

def smallSigma1 (x : Nat) : Nat := rotr 17 x ^^^ rotr 19 x ^^^ (x >>> 10)

def shaK : List Nat :=
  [1116352408, 1899447441, 3049323471, 3921009573,
   961987163, 1508970993, 2453635748, 2870763221,
   3624381080, 310598401, 607225278, 1426881987,
   1925078388, 2162078206, 2614888103, 3248222580,
   3835390401, 4022224774, 264347078, 604807628,
   770255983, 1249150122, 1555081692, 1996064986,
   2554220882, 2821834349, 2952996808, 3210313671,
   3336571891, 3584528711, 113926993, 338241895,
   666307205, 773529912, 1294757372, 1396182291,
   1695183700, 1986661051, 2177026350, 2456956037,
   2730485921, 2820302411, 3259730800, 3345764771,
   3516065817, 3600352804, 4094571909, 275423344,
   430227734, 506948616, 659060556, 883997877,
   958139571, 1322822218, 1537002063, 1747873779,
   1955562222, 2024104815, 2227730452, 2361852424,
   2428436474, 2756734187, 3204031479, 3329325298]

structure H8 where
  a : Nat
  b : Nat
  c : Nat
  d : Nat
  e : Nat
  f : Nat
  g : Nat
  h : Nat
deriving DecidableEq

def shaInit : H8 :=
  ⟨1779033703, 3144134277, 1013904242, 2773480762, 1359893119, 2600822924, 528734635, 1541459225⟩

def extendWs : Nat → List Nat → List Nat
  | 0, ws => ws
  | n + 1, ws =>
    let m := ws.length
    let w := w32 (smallSigma1 (ws.getD (m - 2) 0) + ws.getD (m - 7) 0 +
      smallSigma0 (ws.getD (m - 15) 0) + ws.getD (m - 16) 0)
    extendWs n (ws ++ [w])

def roundStep (st : H8) (kw : Nat × Nat) : H8 :=
  let t1 := w32 (st.h + bigSigma1 st.e + shaCh st.e st.f st.g + kw.1 + kw.2)
  let t2 := w32 (bigSigma0 st.a + shaMaj st.a st.b st.c)
  ⟨w32 (t1 + t2), st.a, st.b, st.c, w32 (st.d + t1), st.e, st.f, st.g⟩

def compressBlock (st : H8) (block : List Nat) : H8 :=
  let ws := extendWs 48 block
  let t := (shaK.zip ws).foldl roundStep st
  ⟨w32 (st.a + t.a), w32 (st.b + t.b), w32 (st.c + t.c), w32 (st.d + t.d),
   w32 (st.e + t.e), w32 (st.f + t.f), w32 (st.g + t.g), w32 (st.h + t.h)⟩

def beBytes : Nat → Nat → List Nat
  | 0, _ => []
  | k + 1, n => beBytes k (n / 256) ++ [n % 256]

def padMsg (msg : List Nat) : List Nat :=
  let l := msg.length
  msg ++ [128] ++ List.replicate ((64 - (l + 9) % 64) % 64) 0 ++ beBytes 8 (8 * l)

def toWords : List Nat → List Nat
  | a :: b :: c :: d :: rest => (a * 16777216 + b * 65536 + c * 256 + d) :: toWords rest
  | _ => []

def toBlocks : List Nat → List (List Nat)
  | [] => []
  | x :: xs => (x :: xs.take 15) :: toBlocks (xs.drop 15)
termination_by l => l.length
decreasing_by simp; omega

def digestBytes (st : H8) : List Nat :=
  beBytes 4 st.a ++ beBytes 4 st.b ++ beBytes 4 st.c ++ beBytes 4 st.d ++
  beBytes 4 st.e ++ beBytes 4 st.f ++ beBytes 4 st.g ++ beBytes 4 st.h

def sha256 (msg : List Nat) : List Nat :=
  digestBytes ((toBlocks (toWords (padMsg msg))).foldl compressBlock shaInit)

def hexDigits : List Char :=
  (List.range 16).map (fun n => Char.ofNat (if n < 10 then 48 + n else 87 + n))

def hexByte (b : Nat) : List Char := [hexDigits.getD (b / 16 % 16) '0', hexDigits.getD (b % 16) '0']

def hexOfBytes (bs : List Nat) : List Char := (bs.map hexByte).flatten


/-- The secret computation of `Server::new` (proxy.rs:24-29):
`sha.input_str(seed); sha.result(&mut secret); secret.truncate(16)` -- the
SHA-256 digest of the seed's bytes truncated to 16 bytes. -/
def Server.newSecret (seed : List Nat) : List Nat := (sha256 seed).take 16

/-- `Server::secret` (proxy.rs:41-44): each secret byte formatted `{:02x}`
(two lowercase hex digits) and the pieces joined. -/
def Server.secretDisplay (s : Server) : List Char := hexOfBytes s.secret

/-
Concrete fixtures used by counterexamples and witnesses.
-/

/-- A fresh endpoint with read interest, as produced right after an accept. -/
def pumpA : Pump := ⟨[], [], true, false⟩

/-- A fresh endpoint with read and write interest. -/
def pumpB : Pump := ⟨[], [], true, true⟩

/-- The freshly started server: no pumps, no links, no zombies. -/
def server0 : Server := ⟨[], [], [], [], [], []⟩

/-- Listener readiness delivering one successfully accepted connection. -/
def evAccept : Ev := { token := ROOT_TOKEN, accepted := some pumpA }

/-- Readable event on token 0 whose drain yields a spawned peer endpoint. -/
def evSpawn : Ev := { token := 0, readable := true, spawn := some pumpB }

/-- Hangup readiness on token 0. -/
def evHup0 : Ev := { token := 0, hup := true }

/-- Hangup readiness on token 1. -/
def evHup1 : Ev := { token := 1, hup := true }

/-- Three dispatch cycles from the fresh server: accept a client, let its
drain spawn a linked peer, then deliver hangup on both linked endpoints in
one batch. -/
def bugTrace : Option Server :=
  (server0.dispatch [evAccept]).bind fun s =>
    (s.dispatch [evSpawn]).bind fun s => s.dispatch [evHup0, evHup1]

/-- A server whose pump table holds exactly `MAX_PUMPS` endpoints. -/
def serverFull : Server := ⟨[], List.replicate MAX_PUMPS (some pumpA), [], [], [], []⟩

/-- A server holding exactly one endpoint at token 0, unlinked. -/
def sOne : Server := ⟨[], [some pumpA], [], [], [0], []⟩

/-- Readable event on token 0 whose drain loop ends in a fatal error
(no hangup/error readiness). -/
def evDrainErr : Ev := { token := 0, readable := true, drainFatal := true }

/-- UTF-8 bytes of the seed string "seed". -/
def seedBytes : List Nat := [115, 101, 101, 100]

/-- A server whose process-wide secret was derived from `seedBytes` as
`Server::new` does. -/
def serverSeed : Server := ⟨Server.newSecret seedBytes, [], [], [], [], []⟩

/-- The server reached from `sOne` after one dispatch cycle in which the
drain of token 0 spawned a peer: two endpoints, symmetrically linked. -/
def sSpawned : Server :=
  ⟨[], [some pumpA, some pumpB], [], [(0, 1), (1, 0)], [0, 1], []⟩

/-- A server with one zombified token (0) that re-acquired a link to a
live endpoint (2) before its deferred removal. -/
def sZombie : Server :=
  ⟨[], [some pumpA, some pumpB, some pumpA], [0], [(0, 2), (2, 0)], [0, 2], []⟩

/-- A draining endpoint holding two freshly drained bytes for its peer. -/
def pumpOut : Pump := ⟨[1, 2], [], true, false⟩

/-- A peer endpoint with one byte already queued outbound. -/
def pumpPeer : Pump := ⟨[], [5], false, true⟩

/-- A linked pair used to exercise `fan_out`. -/
def sFan : Server :=
  ⟨[], [some pumpOut, some pumpPeer], [], [(0, 1), (1, 0)], [0, 1], []⟩

/-
Basic slab lemmas.
-/

theorem slabLen_cons_some (p : Pump) (rest : Slots) :
    slabLen (some p :: rest) = slabLen rest + 1 := by
  simp [slabLen, List.filter]

theorem slabLen_cons_none (rest : Slots) : slabLen (none :: rest) = slabLen rest := by
  simp [slabLen, List.filter]

theorem slabLen_slabInsert (ps : Slots) (p : Pump) :
    slabLen (slabInsert ps p).1 = slabLen ps + 1 := by
  induction ps with
  | nil => rfl
  | cons o rest ih =>
    cases o with
    | none => simp [slabInsert, slabLen_cons_some, slabLen_cons_none]
    | some q => simp [slabInsert, slabLen_cons_some, ih]

theorem slabLen_replicate (n : Nat) (p : Pump) :
    slabLen (List.replicate n (some p)) = n := by
  induction n with
  | zero => rfl
  | succ m ih => simp [List.replicate, slabLen_cons_some, ih]

theorem mem_setInsert (l : List Nat) (t x : Nat) :
    x ∈ setInsert l t ↔ x ∈ l ∨ x = t := by
  unfold setInsert
  by_cases h : t ∈ l
  · simp only [if_pos h]
    exact ⟨Or.inl, fun hx => hx.elim id (fun he => he ▸ h)⟩
  · simp [if_neg h]

/-- C1.  The spec guarantees every token is removed at most once, but when
both endpoints of a link go stale in the same batch the code drops the peer
in the stale loop while leaving it in the zombie set: along the concrete
reachable trace `bugTrace`, `drop_pump` has already run on tokens 0 and 1
(`dropLog = [0, 1]`, slot 1 vacant), yet token 1 is still zombified, and
the next dispatch cycle invokes `drop_pump` on it a second time, which
panics on the vacant slab slot (`none`). -/
theorem dispatch_drops_token_twice :
    (bugTrace.map Server.dropLog = some [0, 1] ∧
      bugTrace.map Server.zombie = some [1] ∧
      bugTrace.map (fun s => slabGet s.pumps 1) = some none) ∧
    bugTrace.bind (fun s => s.dispatch []) = none := by
  decide

/-- C4.  A reactor-reported token absent from the table is a defensive
no-op during the event scan (first conjunct: the dispatch of such an event
returns the state unchanged), but the claim that no internal-consistency
situation can panic is refuted by the code: on the reachable trace
`bugTrace` the zombie set holds a token whose slot is already vacant, and
the next cycle's zombie drain panics inside `drop_pump` (`none`). -/
theorem missing_token_noop_but_drop_panics :
    Server.dispatch sOne
        [{ token := 5, readable := true, writable := true, hup := true,
           drainFatal := true, flushFatal := true }] = some sOne ∧
    bugTrace.bind (fun s => s.dispatch []) = none := by
  decide

/-- C2 counterexample.  With the table size exactly `MAX_PUMPS` the guard
`pumps.len() > MAX_PUMPS` does not fire: `accept` still inserts, and the
table size exceeds `MAX_PUMPS`, refuting "refuses once the size has
reached MAX_PUMPS / never exceeds MAX_PUMPS". -/
theorem accept_inserts_at_exact_capacity :
    slabLen serverFull.pumps = MAX_PUMPS ∧
    MAX_PUMPS < slabLen (serverFull.accept (some pumpB)).pumps := by
  have h1 : slabLen serverFull.pumps = MAX_PUMPS := by
    simp [serverFull, slabLen_replicate]
  refine ⟨h1, ?_⟩
  simp [Server.accept, h1, slabLen_slabInsert]

/-- C2 amended.  The guard is a strict comparison: `accept` refuses (and
leaves the state untouched) exactly when the table size strictly exceeds
`MAX_PUMPS`; consequently `accept` preserves the bound `MAX_PUMPS + 1`
rather than `MAX_PUMPS`, and once the size is back at or below
`MAX_PUMPS` a successful raw accept inserts again. -/
theorem accept_capacity_policy (s : Server) (conn : Option Pump)
    (hb : slabLen s.pumps ≤ MAX_PUMPS + 1) :
    (MAX_PUMPS < slabLen s.pumps → s.accept conn = s) ∧
    slabLen (s.accept conn).pumps ≤ MAX_PUMPS + 1 ∧
    (slabLen s.pumps ≤ MAX_PUMPS → ∀ p, conn = some p →
      slabLen (s.accept conn).pumps = slabLen s.pumps + 1) := by
  by_cases hlt : MAX_PUMPS < slabLen s.pumps
  · refine ⟨fun _ => ?_, ?_, fun hle => absurd hlt (not_lt.mpr hle)⟩
    · simp [Server.accept, hlt]
    · simp [Server.accept, hlt, hb]
  · cases conn with
    | none =>
      refine ⟨fun h => absurd h hlt, ?_, fun _ p hp => by cases hp⟩
      simp [Server.accept, hlt, hb]
    | some p =>
      refine ⟨fun h => absurd h hlt, ?_, fun hle q hq => ?_⟩
      · simp only [Server.accept, if_neg hlt]
        simp [slabLen_slabInsert]
        omega
      · simp only [Server.accept, if_neg hlt]
        simp [slabLen_slabInsert]

/-- C2 amended witness at a concrete input. -/
theorem accept_capacity_policy_witness :
    slabLen server0.pumps ≤ MAX_PUMPS + 1 ∧
    ((MAX_PUMPS < slabLen server0.pumps → server0.accept (some pumpA) = server0) ∧
      slabLen (server0.accept (some pumpA)).pumps ≤ MAX_PUMPS + 1 ∧
      (slabLen server0.pumps ≤ MAX_PUMPS → ∀ p, some pumpA = some p →
        slabLen (server0.accept (some pumpA)).pumps = slabLen server0.pumps + 1)) :=
  ⟨by decide, accept_capacity_policy server0 (some pumpA) (by decide)⟩

/-- C9 counterexample.  At a table size of exactly `MAX_PUMPS` ("at
capacity") a successful raw accept does not leave the state unchanged: the
endpoint is inserted, refuting the claim's refusal-at-capacity clause. -/
theorem accept_at_capacity_mutates :
    slabLen serverFull.pumps = MAX_PUMPS ∧
    serverFull.accept (some pumpB) ≠ serverFull := by
  have h1 : slabLen serverFull.pumps = MAX_PUMPS := by
    simp [serverFull, slabLen_replicate]
  have h2 : slabLen (serverFull.accept (some pumpB)).pumps = MAX_PUMPS + 1 := by
    simp [Server.accept, h1, slabLen_slabInsert]
  refine ⟨h1, fun h => ?_⟩
  rw [h, h1] at h2
  omega

/-- C9 amended.  Each `accept` invocation handles at most one pending
connection (the table grows by at most one), and when the raw accept fails
or the table size strictly exceeds `MAX_PUMPS` it returns with the pump
table, links and zombie set (the whole state) unchanged. -/
theorem accept_error_isolated (s : Server) (conn : Option Pump)
    (h : MAX_PUMPS < slabLen s.pumps ∨ conn = none) :
    s.accept conn = s ∧
    ∀ (s2 : Server) (c2 : Option Pump),
      slabLen (s2.accept c2).pumps ≤ slabLen s2.pumps + 1 := by
  constructor
  · rcases h with h | h
    · simp [Server.accept, h]
    · subst h
      by_cases hlt : MAX_PUMPS < slabLen s.pumps <;> simp [Server.accept, hlt]
  · intro s2 c2
    by_cases hlt : MAX_PUMPS < slabLen s2.pumps
    · simp [Server.accept, hlt]
    · cases c2 with
      | none => simp [Server.accept, hlt]
      | some p =>
        simp only [Server.accept, if_neg hlt]
        simp [slabLen_slabInsert]

/-- C9 amended witness at a concrete input (raw accept failure on the
fresh server). -/
theorem accept_error_isolated_witness :
    server0.accept none = server0 ∧
    ∀ (s2 : Server) (c2 : Option Pump),
      slabLen (s2.accept c2).pumps ≤ slabLen s2.pumps + 1 :=
  accept_error_isolated server0 none (Or.inr rfl)

/-- C5 counterexample.  A fatal drain error (no hangup/error readiness)
marks token 0 stale, yet the event handler still re-registers it: the
result of the scan has token 0 both in the stale set and in the
re-registration log, refuting "re-registered iff not marked stale during
the handling of that event". -/
theorem stale_token_still_reregistered :
    Server.scanEvent (sOne, Batch.empty) evDrainErr =
      some (sOne, { stale := [0], newPeers := [], rereg := [0] }) := by
  decide

theorem spawnMark_stale (acc : Batch) (t : Nat) (o : Option Pump) :
    (Server.spawnMark acc t o).stale = acc.stale := by
  cases o <;> rfl

theorem spawnMark_rereg (acc : Batch) (t : Nat) (o : Option Pump) :
    (Server.spawnMark acc t o).rereg = acc.rereg := by
  cases o <;> rfl

theorem staleMark_stale (acc : Batch) (t : Nat) (f : Bool) :
    (Server.staleMark acc t f).stale =
      if f = true then setInsert acc.stale t else acc.stale := by
  unfold Server.staleMark
  by_cases hf : f = true <;> simp [hf]

theorem staleMark_rereg (acc : Batch) (t : Nat) (f : Bool) :
    (Server.staleMark acc t f).rereg = acc.rereg := by
  unfold Server.staleMark
  by_cases hf : f = true <;> simp [hf]

theorem readStep_acc {s : Server} {acc : Batch} {ev : Ev} {r : Server × Batch}
    (h : Server.readStep s acc ev = some r) :
    r.2.rereg = acc.rereg ∧
    r.2.stale = (if ev.readable = true ∧ ev.drainFatal = true
      then setInsert acc.stale ev.token else acc.stale) := by
  unfold Server.readStep at h
  split at h
  · dsimp only [] at h
    have hacc : ∀ sv : Server × Batch,
        sv.2 = Server.staleMark (Server.spawnMark acc ev.token ev.spawn) ev.token
          ev.drainFatal →
        sv.2.rereg = acc.rereg ∧
        sv.2.stale = (if ev.readable = true ∧ ev.drainFatal = true
          then setInsert acc.stale ev.token else acc.stale) := by
      intro sv hsv
      rw [hsv, staleMark_rereg, spawnMark_rereg, staleMark_stale, spawnMark_stale]
      refine ⟨rfl, ?_⟩
      by_cases hdf : ev.drainFatal = true <;>
        simp [hdf, *]
    split at h
    · rcases Option.map_eq_some'.mp h with ⟨fo, _, hr⟩
      exact hacc r (by rw [← hr])
    · cases h
      exact hacc _ rfl
  · cases h
    refine ⟨rfl, ?_⟩
    simp [*]

theorem writeStep_acc {s : Server} {acc : Batch} {ev : Ev} {r : Server × Batch}
    (h : Server.writeStep s acc ev = some r) :
    r.2.rereg = acc.rereg ∧
    r.2.stale = (if ev.writable = true ∧ ev.flushFatal = true
      then setInsert acc.stale ev.token else acc.stale) := by
  unfold Server.writeStep at h
  split at h
  · rcases Option.map_eq_some'.mp h with ⟨s2, _, hr⟩
    subst hr
    rw [staleMark_rereg, staleMark_stale]
    refine ⟨rfl, ?_⟩
    by_cases hff : ev.flushFatal = true <;> simp [hff, *]
  · cases h
    refine ⟨rfl, ?_⟩
    simp [*]

theorem hupStep_acc (s : Server) (acc : Batch) (ev : Ev) :
    (Server.hupStep s acc ev).2.rereg =
      (if (ev.hup || ev.err) = true then acc.rereg else acc.rereg ++ [ev.token]) ∧
    (Server.hupStep s acc ev).2.stale =
      (if (ev.hup || ev.err) = true then setInsert acc.stale ev.token else acc.stale) := by
  unfold Server.hupStep
  by_cases hhe : (ev.hup || ev.err) = true <;> simp [hhe]

/-- C5 amended.  For any event on a present token, linked or not: the
endpoint is re-registered if and only if the event's readiness carries
neither hangup nor error (a stale mark coming from a fatal drain/flush
error does not suppress re-registration); staleness itself arises exactly
from a fatal drain error on a readable event, a fatal flush error on a
writable event, or hangup/error readiness. -/
theorem rereg_iff_no_hup_err (s : Server) (ev : Ev) (r : Server × Batch)
    (hroot : ev.token ≠ ROOT_TOKEN)
    (hpump : (slabGet s.pumps ev.token).isSome = true)
    (hsc : Server.scanEvent (s, Batch.empty) ev = some r) :
    (ev.token ∈ r.2.rereg ↔ ¬(ev.hup = true ∨ ev.err = true)) ∧
    (ev.token ∈ r.2.stale ↔
      (ev.readable = true ∧ ev.drainFatal = true) ∨
      (ev.writable = true ∧ ev.flushFatal = true) ∨
      ev.hup = true ∨ ev.err = true) := by
  obtain ⟨p, hp⟩ := Option.isSome_iff_exists.mp hpump
  unfold Server.scanEvent at hsc
  rw [if_neg hroot] at hsc
  dsimp only [] at hsc
  rw [hp] at hsc
  simp only [Option.bind_eq_bind] at hsc
  rcases Option.bind_eq_some.mp hsc with ⟨r1, hr1, hsc⟩
  rcases Option.bind_eq_some.mp hsc with ⟨r2, hr2, hsc⟩
  cases hsc
  obtain ⟨ra, rs⟩ := readStep_acc hr1
  obtain ⟨wa, ws⟩ := writeStep_acc hr2
  obtain ⟨ha, hs2⟩ := hupStep_acc r2.1 r2.2 ev
  constructor
  · rw [ha, wa, ra]
    by_cases hhe : (ev.hup || ev.err) = true
    · rw [if_pos hhe]
      rw [Bool.or_eq_true] at hhe
      simp [Batch.empty, hhe]
    · rw [if_neg hhe]
      rw [Bool.or_eq_true] at hhe
      simp [Batch.empty, hhe]
  · rw [hs2, ws, rs]
    by_cases h1 : ev.readable = true ∧ ev.drainFatal = true <;>
      by_cases h2 : ev.writable = true ∧ ev.flushFatal = true <;>
        by_cases h3 : (ev.hup || ev.err) = true <;>
          · rw [Bool.or_eq_true] at h3
            simp [h1, h2, h3, Batch.empty, mem_setInsert]
            try tauto

/-- C5 amended witness at a concrete input: a linked endpoint (token 0 of
`sSpawned`) whose drain fails fatally with no hangup readiness is both
marked stale and re-registered. -/
theorem rereg_iff_no_hup_err_witness :
    (evDrainErr.token ∈ ({ stale := [0], newPeers := [], rereg := [0] } : Batch).rereg ↔
      ¬(evDrainErr.hup = true ∨ evDrainErr.err = true)) ∧
    (evDrainErr.token ∈ ({ stale := [0], newPeers := [], rereg := [0] } : Batch).stale ↔
      (evDrainErr.readable = true ∧ evDrainErr.drainFatal = true) ∨
      (evDrainErr.writable = true ∧ evDrainErr.flushFatal = true) ∨
      evDrainErr.hup = true ∨ evDrainErr.err = true) :=
  rereg_iff_no_hup_err sSpawned evDrainErr
    (sSpawned, { stale := [0], newPeers := [], rereg := [0] })
    (by decide) (by decide) (by decide)

/-
Digest length and hex-alphabet lemmas for the secret derivation.
-/

theorem beBytes_length (k : Nat) : ∀ n, (beBytes k n).length = k := by
  induction k with
  | zero => intro n; rfl
  | succ m ih => intro n; simp [beBytes, ih]

theorem digestBytes_length (st : H8) : (digestBytes st).length = 32 := by
  simp [digestBytes, beBytes_length]

theorem sha256_length (msg : List Nat) : (sha256 msg).length = 32 := by
  simp [sha256, digestBytes_length]

theorem newSecret_length (seed : List Nat) : (Server.newSecret seed).length = 16 := by
  simp [Server.newSecret, sha256_length]

theorem hexDigits_getD_mem (i : Nat) (h : i < 16) : hexDigits.getD i '0' ∈ hexDigits := by
  interval_cases i <;> decide

theorem hexByte_mem (b : Nat) : ∀ c ∈ hexByte b, c ∈ hexDigits := by
  intro c hc
  simp only [hexByte, List.mem_cons, List.not_mem_nil, or_false] at hc
  rcases hc with rfl | rfl
  · exact hexDigits_getD_mem _ (Nat.mod_lt _ (by norm_num))
  · exact hexDigits_getD_mem _ (Nat.mod_lt _ (by norm_num))

theorem hexOfBytes_length (bs : List Nat) : (hexOfBytes bs).length = 2 * bs.length := by
  induction bs with
  | nil => rfl
  | cons b rest ih =>
    simp [hexOfBytes, hexByte] at ih ⊢
    omega

theorem hexOfBytes_mem (bs : List Nat) : ∀ c ∈ hexOfBytes bs, c ∈ hexDigits := by
  intro c hc
  simp only [hexOfBytes, List.mem_flatten, List.mem_map] at hc
  obtain ⟨l, ⟨b, _, rfl⟩, hcl⟩ := hc
  exact hexByte_mem b c hcl

/-- C7.  The process-wide secret is the SHA-256 digest of the seed bytes
truncated to exactly 16 bytes, hence a deterministic function of the seed
(equal seeds yield equal secrets), and the operator string `Server::secret`
renders it as 32 lowercase hexadecimal characters. -/
theorem secret_is_truncated_sha256_hex (seed seed2 : List Nat) (srv : Server)
    (hseed : seed = seed2) (hsrv : srv.secret = Server.newSecret seed) :
    Server.newSecret seed = (sha256 seed).take 16 ∧
    Server.newSecret seed = Server.newSecret seed2 ∧
    (Server.newSecret seed).length = 16 ∧
    srv.secretDisplay.length = 32 ∧
    (∀ c ∈ srv.secretDisplay, c ∈ hexDigits) := by
  subst hseed
  refine ⟨rfl, rfl, newSecret_length seed, ?_, ?_⟩
  · simp [Server.secretDisplay, hsrv, hexOfBytes_length, newSecret_length]
  · intro c hc
    exact hexOfBytes_mem _ c (by simpa [Server.secretDisplay, hsrv] using hc)

/-- C7 witness at the concrete seed "seed". -/
theorem secret_is_truncated_sha256_hex_witness :
    Server.newSecret seedBytes = (sha256 seedBytes).take 16 ∧
    Server.newSecret seedBytes = Server.newSecret seedBytes ∧
    (Server.newSecret seedBytes).length = 16 ∧
    serverSeed.secretDisplay.length = 32 ∧
    (∀ c ∈ serverSeed.secretDisplay, c ∈ hexDigits) :=
  secret_is_truncated_sha256_hex seedBytes seedBytes serverSeed rfl rfl

/-
Slot access lemmas.
-/

theorem slabGet_some_lt {ps : Slots} {i : Nat} {p : Pump}
    (h : slabGet ps i = some p) : i < ps.length := by
  by_contra hge
  simp [slabGet, List.getD, List.getElem?_eq_none (Nat.le_of_not_lt hge)] at h

theorem slabGet_set_self {ps : Slots} {i : Nat} (v : Option Pump)
    (h : i < ps.length) : slabGet (ps.set i v) i = v := by
  simp [slabGet, List.getD, List.getElem?_set_self', List.getElem?_eq_getElem h]

theorem slabGet_set_ne {i j : Nat} (ps : Slots) (v : Option Pump)
    (h : i ≠ j) : slabGet (ps.set i v) j = slabGet ps j := by
  simp [slabGet, List.getD, List.getElem?_set_ne h]

theorem slabGet_modifySlot_self {ps : Slots} {i : Nat} {p : Pump} (f : Pump → Pump)
    (h : slabGet ps i = some p) : slabGet (modifySlot ps i f) i = some (f p) := by
  simp [modifySlot, h, slabGet_set_self _ (slabGet_some_lt h)]

theorem slabGet_modifySlot_ne {i j : Nat} (ps : Slots) (f : Pump → Pump)
    (h : i ≠ j) : slabGet (modifySlot ps i f) j = slabGet ps j := by
  unfold modifySlot
  cases hg : slabGet ps i with
  | none => rfl
  | some p => simp [slabGet_set_ne _ _ h]

theorem mem_setInsert_self (l : List Nat) (t : Nat) : t ∈ setInsert l t := by
  by_cases h : t ∈ l <;> simp [setInsert, h]

/-- C8.  `fan_out` pulls the bytes just produced by the draining endpoint;
when some were produced it appends all of them to the peer's outbound
buffer (dropping none) and re-registers the peer; when none were produced
it returns `false` and leaves the peer's slot, the registration state, the
links and the zombie set unchanged. -/
theorem fan_out_moves_all_bytes (s : Server) (t peer : Nat) (p q : Pump)
    (hp : slabGet s.pumps t = some p) (hq : slabGet s.pumps peer = some q)
    (hne : t ≠ peer) :
    (p.outBuf = [] →
      ∃ s1, s.fan_out t peer = some (s1, false) ∧
        slabGet s1.pumps peer = some q ∧
        s1.registered = s.registered ∧ s1.links = s.links ∧ s1.zombie = s.zombie) ∧
    (p.outBuf ≠ [] →
      ∃ s1, s.fan_out t peer = some (s1, true) ∧
        slabGet s1.pumps peer = some { q with sendBuf := q.sendBuf ++ p.outBuf } ∧
        slabGet s1.pumps t = some { p with outBuf := [] } ∧
        peer ∈ s1.registered) := by
  have hq1 : slabGet (modifySlot s.pumps t fun r => { r with outBuf := [] }) peer = some q := by
    rw [slabGet_modifySlot_ne _ _ hne]; exact hq
  constructor
  · intro hbuf
    refine ⟨{ s with pumps := modifySlot s.pumps t fun r => { r with outBuf := [] } },
      ?_, hq1, rfl, rfl, rfl⟩
    simp [Server.fan_out, hp, hbuf]
  · intro hbuf
    refine ⟨{ s with
        pumps := modifySlot (modifySlot s.pumps t fun r => { r with outBuf := [] }) peer
          fun r => { r with sendBuf := r.sendBuf ++ p.outBuf },
        registered := setInsert s.registered peer }, ?_, ?_, ?_, ?_⟩
    · simp [Server.fan_out, hp, hbuf, hne, hq1]
    · exact slabGet_modifySlot_self _ hq1
    · rw [slabGet_modifySlot_ne _ _ (Ne.symm hne)]
      exact slabGet_modifySlot_self _ hp
    · exact mem_setInsert_self _ _

theorem foldlM_option_inv {α β : Type} (f : β → α → Option β) (P : β → Prop) :
    ∀ (l : List α) (b b' : β),
      (∀ x ∈ l, ∀ c c', f c x = some c' → P c → P c') →
      List.foldlM f b l = some b' → P b → P b' := by
  intro l
  induction l with
  | nil =>
    intro b b' _ h hP
    simp [List.foldlM] at h
    exact h ▸ hP
  | cons a l ih =>
    intro b b' hf h hP
    simp only [List.foldlM, Option.bind_eq_bind] at h
    rcases Option.bind_eq_some.mp h with ⟨b1, hb1, hrest⟩
    exact ih b1 b' (fun x hx => hf x (List.mem_cons_of_mem a hx)) hrest
      (hf a (List.mem_cons_self a l) b b1 hb1 hP)

theorem slabGet_nil (x : Nat) : slabGet [] x = none := by
  simp [slabGet, List.getD]

theorem slabGet_cons_zero (o : Option Pump) (rest : Slots) : slabGet (o :: rest) 0 = o := by
  simp [slabGet, List.getD]

theorem slabGet_cons_succ (o : Option Pump) (rest : Slots) (m : Nat) :
    slabGet (o :: rest) (m + 1) = slabGet rest m := by
  simp [slabGet, List.getD]

theorem slabInsert_get_mono (ps : Slots) (q : Pump) :
    ∀ x p0, slabGet ps x = some p0 → slabGet (slabInsert ps q).1 x = some p0 := by
  induction ps with
  | nil => intro x p0 h; rw [slabGet_nil] at h; cases h
  | cons o rest ih =>
    intro x p0 h
    cases o with
    | none =>
      cases x with
      | zero => rw [slabGet_cons_zero] at h; cases h
      | succ m =>
        rw [slabGet_cons_succ] at h
        simpa [slabInsert, slabGet_cons_succ] using h
    | some v =>
      cases x with
      | zero =>
        rw [slabGet_cons_zero] at h
        simpa [slabInsert, slabGet_cons_zero] using h
      | succ m =>
        rw [slabGet_cons_succ] at h
        simpa [slabInsert, slabGet_cons_succ] using ih m p0 h

theorem modifySlot_isSome (ps : Slots) (i : Nat) (f : Pump → Pump) (x : Nat)
    (h : (slabGet ps x).isSome = true) : (slabGet (modifySlot ps i f) x).isSome = true := by
  by_cases hx : i = x
  · subst hx
    obtain ⟨p, hp⟩ := Option.isSome_iff_exists.mp h
    simp [slabGet_modifySlot_self f hp]
  · rw [slabGet_modifySlot_ne _ _ hx]
    exact h

theorem accept_effects (s : Server) (c : Option Pump) :
    (s.accept c).links = s.links ∧ (s.accept c).zombie = s.zombie ∧
    (s.accept c).dropLog = s.dropLog ∧
    ∀ x, (slabGet s.pumps x).isSome = true → (slabGet (s.accept c).pumps x).isSome = true := by
  unfold Server.accept
  by_cases hlt : MAX_PUMPS < slabLen s.pumps
  · simp [hlt]
  · cases c with
    | none => simp [hlt]
    | some p =>
      refine ⟨by simp [hlt], by simp [hlt], by simp [hlt], ?_⟩
      intro x hx
      obtain ⟨p0, hp0⟩ := Option.isSome_iff_exists.mp hx
      simp only [if_neg hlt]
      simp [slabInsert_get_mono s.pumps p x p0 hp0]

theorem fan_out_effects {s : Server} {t peer : Nat} {r : Server × Bool}
    (h : s.fan_out t peer = some r) :
    r.1.links = s.links ∧ r.1.zombie = s.zombie ∧ r.1.dropLog = s.dropLog ∧
    ∀ x, (slabGet s.pumps x).isSome = true → (slabGet r.1.pumps x).isSome = true := by
  unfold Server.fan_out at h
  cases hg : slabGet s.pumps t with
  | none => simp [hg] at h
  | some p =>
    simp only [hg] at h
    by_cases hb : p.outBuf = []
    · simp only [hb, reduceIte] at h
      cases h
      exact ⟨rfl, rfl, rfl, fun x hx => modifySlot_isSome _ _ _ _ hx⟩
    · simp only [hb, reduceIte] at h
      by_cases htp : t = peer
      · simp [htp] at h
      · simp only [htp, reduceIte] at h
        cases hg2 : slabGet (modifySlot s.pumps t fun q => { q with outBuf := [] }) peer with
        | none => rw [hg2] at h; cases h
        | some q =>
          rw [hg2] at h
          cases h
          exact ⟨rfl, rfl, rfl,
            fun x hx => modifySlot_isSome _ _ _ _ (modifySlot_isSome _ _ _ _ hx)⟩

theorem fan_in_effects {s : Server} {t peer : Nat} {r : Server × Bool}
    (h : s.fan_in t peer = some r) :
    r.1.links = s.links ∧ r.1.zombie = s.zombie ∧ r.1.dropLog = s.dropLog ∧
    ∀ x, (slabGet s.pumps x).isSome = true → (slabGet r.1.pumps x).isSome = true := by
  unfold Server.fan_in at h
  cases hg : slabGet s.pumps peer with
  | none => simp [hg] at h
  | some q =>
    simp only [hg] at h
    by_cases htp : t = peer
    · simp [htp] at h
    · simp only [htp, reduceIte] at h
      by_cases hb : q.outBuf = []
      · simp only [hb, reduceIte] at h
        cases h
        exact ⟨rfl, rfl, rfl, fun x hx => modifySlot_isSome _ _ _ _ hx⟩
      · simp only [hb, reduceIte] at h
        cases h
        exact ⟨rfl, rfl, rfl,
          fun x hx => modifySlot_isSome _ _ _ _ (modifySlot_isSome _ _ _ _ hx)⟩

theorem staleMark_newPeers (acc : Batch) (t : Nat) (f : Bool) :
    (Server.staleMark acc t f).newPeers = acc.newPeers := by
  unfold Server.staleMark
  by_cases hf : f = true <;> simp [hf]

theorem spawnMark_newPeers (acc : Batch) (t : Nat) (o : Option Pump) :
    (Server.spawnMark acc t o).newPeers = acc.newPeers ∨
    ∃ p, o = some p ∧ (Server.spawnMark acc t o).newPeers = npInsert acc.newPeers t p := by
  cases o with
  | none => exact Or.inl rfl
  | some p => exact Or.inr ⟨p, rfl, rfl⟩

theorem readStep_effects {s : Server} {acc : Batch} {ev : Ev} {r : Server × Batch}
    (h : Server.readStep s acc ev = some r) :
    r.1.links = s.links ∧ r.1.zombie = s.zombie ∧ r.1.dropLog = s.dropLog ∧
    (∀ x, (slabGet s.pumps x).isSome = true → (slabGet r.1.pumps x).isSome = true) ∧
    (r.2.newPeers = acc.newPeers ∨
      ∃ p, ev.spawn = some p ∧ r.2.newPeers = npInsert acc.newPeers ev.token p) := by
  have hnp : (Server.staleMark (Server.spawnMark acc ev.token ev.spawn) ev.token
      ev.drainFatal).newPeers = acc.newPeers ∨
      ∃ p, ev.spawn = some p ∧
        (Server.staleMark (Server.spawnMark acc ev.token ev.spawn) ev.token
          ev.drainFatal).newPeers = npInsert acc.newPeers ev.token p := by
    rw [staleMark_newPeers]
    exact spawnMark_newPeers acc ev.token ev.spawn
  unfold Server.readStep at h
  split at h
  · dsimp only [] at h
    split at h
    · rcases Option.map_eq_some'.mp h with ⟨fo, hfo, hr⟩
      obtain ⟨e1, e2, e3, e4⟩ := fan_out_effects hfo
      subst hr
      exact ⟨e1, e2, e3, fun x hx => e4 x (modifySlot_isSome _ _ _ _ hx), hnp⟩
    · cases h
      exact ⟨rfl, rfl, rfl, fun x hx => modifySlot_isSome _ _ _ _ hx, hnp⟩
  · cases h
    exact ⟨rfl, rfl, rfl, fun x hx => hx, Or.inl rfl⟩

theorem writeStep_effects {s : Server} {acc : Batch} {ev : Ev} {r : Server × Batch}
    (h : Server.writeStep s acc ev = some r) :
    r.1.links = s.links ∧ r.1.zombie = s.zombie ∧ r.1.dropLog = s.dropLog ∧
    (∀ x, (slabGet s.pumps x).isSome = true → (slabGet r.1.pumps x).isSome = true) ∧
    r.2.newPeers = acc.newPeers := by
  unfold Server.writeStep at h
  split at h
  · rcases Option.map_eq_some'.mp h with ⟨s2, hs2, hr⟩
    subst hr
    split at hs2
    · rcases Option.map_eq_some'.mp hs2 with ⟨fi, hfi, hs⟩
      obtain ⟨e1, e2, e3, e4⟩ := fan_in_effects hfi
      subst hs
      exact ⟨e1, e2, e3, e4, staleMark_newPeers _ _ _⟩
    · cases hs2
      exact ⟨rfl, rfl, rfl, fun x hx => hx, staleMark_newPeers _ _ _⟩
  · cases h
    exact ⟨rfl, rfl, rfl, fun x hx => hx, rfl⟩

theorem hupStep_effects (s : Server) (acc : Batch) (ev : Ev) :
    (Server.hupStep s acc ev).1.links = s.links ∧
    (Server.hupStep s acc ev).1.zombie = s.zombie ∧
    (Server.hupStep s acc ev).1.dropLog = s.dropLog ∧
    (Server.hupStep s acc ev).1.pumps = s.pumps ∧
    (Server.hupStep s acc ev).2.newPeers = acc.newPeers := by
  unfold Server.hupStep
  by_cases hhe : (ev.hup || ev.err) = true <;> simp [hhe]

theorem scanEvent_effects {sa r : Server × Batch} {ev : Ev}
    (h : Server.scanEvent sa ev = some r) :
    r.1.links = sa.1.links ∧ r.1.zombie = sa.1.zombie ∧ r.1.dropLog = sa.1.dropLog ∧
    (∀ x, (slabGet sa.1.pumps x).isSome = true → (slabGet r.1.pumps x).isSome = true) ∧
    (r.2.newPeers = sa.2.newPeers ∨
      ∃ p, ev.spawn = some p ∧ ev.token ≠ ROOT_TOKEN ∧
        (slabGet sa.1.pumps ev.token).isSome = true ∧
        r.2.newPeers = npInsert sa.2.newPeers ev.token p) := by
  unfold Server.scanEvent at h
  by_cases hroot : ev.token = ROOT_TOKEN
  · rw [if_pos hroot] at h
    cases h
    obtain ⟨e1, e2, e3, e4⟩ := accept_effects sa.1 ev.accepted
    exact ⟨e1, e2, e3, e4, Or.inl rfl⟩
  · rw [if_neg hroot] at h
    cases hg : slabGet sa.1.pumps ev.token with
    | none =>
      rw [hg] at h
      cases h
      exact ⟨rfl, rfl, rfl, fun x hx => hx, Or.inl rfl⟩
    | some p =>
      rw [hg] at h
      simp only [Option.bind_eq_bind] at h
      rcases Option.bind_eq_some.mp h with ⟨r1, hr1, h⟩
      rcases Option.bind_eq_some.mp h with ⟨r2, hr2, h⟩
      cases h
      obtain ⟨a1, a2, a3, a4, a5⟩ := readStep_effects hr1
      obtain ⟨b1, b2, b3, b4, b5⟩ := writeStep_effects hr2
      obtain ⟨c1, c2, c3, c4, c5⟩ := hupStep_effects r2.1 r2.2 ev
      refine ⟨c1.trans (b1.trans a1), c2.trans (b2.trans a2), c3.trans (b3.trans a3),
        fun x hx => ?_, ?_⟩
      · rw [c4]
        exact b4 x (a4 x hx)
      · rw [c5, b5]
        rcases a5 with h5 | ⟨q, hq, hnp⟩
        · exact Or.inl h5
        · exact Or.inr ⟨q, hq, hroot, rfl, hnp⟩

theorem scanBatch_effects {s : Server} {evs : List Ev} {r : Server × Batch}
    (h : Server.scanBatch s evs = some r) :
    r.1.links = s.links ∧ r.1.zombie = s.zombie ∧ r.1.dropLog = s.dropLog := by
  have := foldlM_option_inv Server.scanEvent
    (fun x => x.1.links = s.links ∧ x.1.zombie = s.zombie ∧ x.1.dropLog = s.dropLog)
    evs (s, Batch.empty) r
    (fun ev _ c c' hc ⟨h1, h2, h3⟩ =>
      let ⟨e1, e2, e3, _, _⟩ := scanEvent_effects hc
      ⟨e1.trans h1, e2.trans h2, e3.trans h3⟩)
    h ⟨rfl, rfl, rfl⟩
  exact this

/-- C6.  After the event scan of a dispatch cycle completes, exactly the
claimed sequence runs before `dispatch` returns: the pending peers are
inserted, linked and registered (`insertPeers`), then the zombie queue is
drained (`drop_zombies`), then every token marked stale in this batch is
dropped; moreover the scan itself removes nothing — it leaves the link
table, the zombie set and the drop log untouched. -/
theorem dispatch_phase_order (s : Server) (evs : List Ev) (r : Server × Batch)
    (hscan : Server.scanBatch s evs = some r) :
    Server.dispatch s evs =
      ((Server.insertPeers r.1 r.2.newPeers).drop_zombies).bind
        (fun s2 => List.foldlM Server.drop_pump s2 r.2.stale) ∧
    r.1.links = s.links ∧ r.1.zombie = s.zombie ∧ r.1.dropLog = s.dropLog := by
  refine ⟨?_, scanBatch_effects hscan⟩
  simp [Server.dispatch, hscan]

/-- C6 witness at a concrete input (the fresh server with an empty batch). -/
theorem dispatch_phase_order_witness :
    Server.dispatch server0 [] =
      ((Server.insertPeers server0 Batch.empty.newPeers).drop_zombies).bind
        (fun s2 => List.foldlM Server.drop_pump s2 Batch.empty.stale) ∧
    server0.links = server0.links ∧ server0.zombie = server0.zombie ∧
    server0.dropLog = server0.dropLog :=
  dispatch_phase_order server0 [] (server0, Batch.empty) rfl

def Symm (l : List (Nat × Nat)) : Prop :=
  ∀ a b, getL l a = some b → getL l b = some a

def LinkedLive (s : Server) : Prop :=
  ∀ a b, getL s.links a = some b →
    (slabGet s.pumps a).isSome = true ∧ (slabGet s.pumps b).isSome = true

theorem getL_cons (pk pv : Nat) (rest : List (Nat × Nat)) (a : Nat) :
    getL ((pk, pv) :: rest) a = if pk = a then some pv else getL rest a := rfl

theorem eraseKey_cons (pk pv k : Nat) (rest : List (Nat × Nat)) :
    eraseKey ((pk, pv) :: rest) k =
      if pk = k then eraseKey rest k else (pk, pv) :: eraseKey rest k := by
  by_cases h : pk = k <;> simp [eraseKey, List.filter_cons, h]

theorem getL_eraseKey (k a : Nat) (l : List (Nat × Nat)) :
    getL (eraseKey l k) a = if a = k then none else getL l a := by
  induction l with
  | nil => simp [eraseKey, getL]
  | cons p rest ih =>
    obtain ⟨pk, pv⟩ := p
    rw [eraseKey_cons]
    by_cases hpk : pk = k
    · subst hpk
      rw [if_pos rfl, ih, getL_cons]
      by_cases hak : a = pk
      · simp [hak]
      · rw [if_neg hak, if_neg (Ne.symm hak), if_neg hak]
    · rw [if_neg hpk, getL_cons, ih, getL_cons]
      by_cases hpa : pk = a
      · subst hpa
        simp [hpk]
      · simp [hpa]

theorem eraseKey_of_not_key {l : List (Nat × Nat)} {k : Nat}
    (h : getL l k = none) : eraseKey l k = l := by
  induction l with
  | nil => rfl
  | cons p rest ih =>
    obtain ⟨pk, pv⟩ := p
    rw [getL_cons] at h
    by_cases hpk : pk = k
    · simp [hpk] at h
    · rw [eraseKey_cons, if_neg hpk, ih (by simpa [hpk] using h)]

theorem symm_after_drop {l : List (Nat × Nat)} (hs : Symm l) {t peer : Nat}
    (ht : getL l t = some peer) : Symm (eraseKey (eraseKey l t) peer) := by
  intro a b hab
  rw [getL_eraseKey, getL_eraseKey] at hab
  by_cases hap : a = peer
  · simp [hap] at hab
  · rw [if_neg hap] at hab
    by_cases hat : a = t
    · simp [hat] at hab
    · rw [if_neg hat] at hab
      have hba := hs a b hab
      have hbt : b ≠ t := by
        intro hbt
        rw [hbt, ht] at hba
        cases hba
        exact hap rfl
      have hbp : b ≠ peer := by
        intro hbp
        rw [hbp] at hba
        rw [hs t peer ht] at hba
        cases hba
        exact hat rfl
      rw [getL_eraseKey, getL_eraseKey, if_neg hbp, if_neg hbt]
      exact hba

theorem getL_insert_pair (l : List (Nat × Nat)) (t o c : Nat) :
    getL (insertL (insertL l t o) o t) c =
      if c = o then some t else if c = t then some o else getL l c := by
  rw [insertL, getL_cons, insertL, getL_eraseKey, getL_cons, getL_eraseKey]
  by_cases hco : c = o
  · simp [hco]
  · rw [if_neg (fun h : o = c => hco h.symm), if_neg hco, if_neg hco]
    by_cases hct : c = t
    · simp [hct]
    · rw [if_neg (fun h : t = c => hct h.symm), if_neg hct, if_neg hct]

theorem symm_insert_pair {l : List (Nat × Nat)} (hs : Symm l) {t o : Nat} (hne : t ≠ o)
    (htk : getL l t = none) (hok : getL l o = none)
    (htv : ∀ x, getL l x ≠ some t) (hov : ∀ x, getL l x ≠ some o) :
    Symm (insertL (insertL l t o) o t) := by
  have hform := getL_insert_pair l t o
  intro a b hab
  rw [hform] at hab
  rw [hform]
  by_cases hao : a = o
  · rw [if_pos hao] at hab
    cases hab
    rw [if_neg hne, if_pos rfl, hao]
  · rw [if_neg hao] at hab
    by_cases hat : a = t
    · rw [if_pos hat] at hab
      cases hab
      rw [if_pos rfl, hat]
    · rw [if_neg hat] at hab
      have hbo : b ≠ o := fun hbo => hov a (hbo ▸ hab)
      have hbt : b ≠ t := fun hbt => htv a (hbt ▸ hab)
      rw [if_neg hbo, if_neg hbt]
      exact hs a b hab

theorem slabRemove_eq {ps ps' : Slots} {t : Nat} (h : slabRemove ps t = some ps') :
    ps' = ps.set t none ∧ (slabGet ps t).isSome = true := by
  unfold slabRemove at h
  cases hg : slabGet ps t with
  | none => rw [hg] at h; cases h
  | some p =>
    rw [hg] at h
    cases h
    exact ⟨rfl, rfl⟩

theorem drop_pump_preserves_linkinv {s s' : Server} {t : Nat}
    (hs : Symm s.links) (hl : LinkedLive s)
    (h : s.drop_pump t = some s') : Symm s'.links ∧ LinkedLive s' := by
  unfold Server.drop_pump at h
  cases hrm : slabRemove s.pumps t with
  | none => rw [hrm] at h; cases h
  | some ps =>
    rw [hrm] at h
    obtain ⟨hps, _⟩ := slabRemove_eq hrm
    subst hps
    dsimp only [] at h
    cases hgl : getL s.links t with
    | some peer =>
      rw [hgl] at h
      cases h
      refine ⟨symm_after_drop hs hgl, ?_⟩
      intro a b hab
      rw [getL_eraseKey, getL_eraseKey] at hab
      by_cases hap : a = peer
      · simp [hap] at hab
      · rw [if_neg hap] at hab
        by_cases hat : a = t
        · simp [hat] at hab
        · rw [if_neg hat] at hab
          have hba := hs a b hab
          have hbt : b ≠ t := by
            intro hbt
            rw [hbt, hgl] at hba
            cases hba
            exact hap rfl
          obtain ⟨ha, hb⟩ := hl a b hab
          constructor
          · rw [slabGet_set_ne _ _ (fun h : t = a => hat h.symm)]
            exact ha
          · rw [slabGet_set_ne _ _ (fun h : t = b => hbt h.symm)]
            exact hb
    | none =>
      rw [hgl] at h
      cases h
      rw [eraseKey_of_not_key hgl]
      refine ⟨hs, ?_⟩
      intro a b hab
      have hat : a ≠ t := by
        intro hat
        rw [hat, hgl] at hab
        cases hab
      have hbt : b ≠ t := by
        intro hbt
        have := hs a b hab
        rw [hbt, hgl] at this
        cases this
      obtain ⟨ha, hb⟩ := hl a b hab
      constructor
      · rw [slabGet_set_ne _ _ (fun h : t = a => hat h.symm)]
        exact ha
      · rw [slabGet_set_ne _ _ (fun h : t = b => hbt h.symm)]
        exact hb

theorem slabInsert_fresh (ps : Slots) (p : Pump) :
    slabGet ps (slabInsert ps p).2 = none := by
  induction ps with
  | nil => exact slabGet_nil 0
  | cons o rest ih =>
    cases o with
    | none => simp [slabInsert, slabGet_cons_zero]
    | some v => simpa [slabInsert, slabGet_cons_succ] using ih

theorem slabInsert_get_self (ps : Slots) (p : Pump) :
    slabGet (slabInsert ps p).1 (slabInsert ps p).2 = some p := by
  induction ps with
  | nil => simp [slabInsert, slabGet_cons_zero]
  | cons o rest ih =>
    cases o with
    | none => simp [slabInsert, slabGet_cons_zero]
    | some v => simpa [slabInsert, slabGet_cons_succ] using ih

theorem slabInsert_isSome_mono (ps : Slots) (q : Pump) (x : Nat)
    (h : (slabGet ps x).isSome = true) : (slabGet (slabInsert ps q).1 x).isSome = true := by
  obtain ⟨p0, hp0⟩ := Option.isSome_iff_exists.mp h
  simp [slabInsert_get_mono ps q x p0 hp0]

theorem insertPeers_preserves :
    ∀ (nps : List (Nat × Pump)) (s : Server),
      Symm s.links → LinkedLive s →
      (∀ op ∈ nps, (slabGet s.pumps op.1).isSome = true ∧ getL s.links op.1 = none) →
      (nps.map Prod.fst).Nodup →
      Symm (Server.insertPeers s nps).links ∧ LinkedLive (Server.insertPeers s nps) := by
  intro nps
  induction nps with
  | nil => intro s hs hl _ _; exact ⟨hs, hl⟩
  | cons op rest ih =>
    intro s hs hl hok hnd
    obtain ⟨o, p⟩ := op
    have hfresh : slabGet s.pumps (slabInsert s.pumps p).2 = none := slabInsert_fresh s.pumps p
    have hoocc : (slabGet s.pumps o).isSome = true := (hok _ (List.mem_cons_self _ _)).1
    have holink : getL s.links o = none := (hok _ (List.mem_cons_self _ _)).2
    have hne : (slabInsert s.pumps p).2 ≠ o := by
      intro he
      rw [← he, hfresh] at hoocc
      cases hoocc
    have htk : getL s.links (slabInsert s.pumps p).2 = none := by
      cases hglx : getL s.links (slabInsert s.pumps p).2 with
      | none => rfl
      | some b =>
        have := (hl _ b hglx).1
        rw [hfresh] at this
        cases this
    have htv : ∀ x, getL s.links x ≠ some (slabInsert s.pumps p).2 := by
      intro x hx
      have := (hl x _ hx).2
      rw [hfresh] at this
      cases this
    have hov : ∀ x, getL s.links x ≠ some o := by
      intro x hx
      have := hs x o hx
      rw [holink] at this
      cases this
    have hmono : ∀ x, (slabGet s.pumps x).isSome = true →
        (slabGet (slabInsert s.pumps p).1 x).isSome = true :=
      fun x hx => slabInsert_isSome_mono s.pumps p x hx
    have hstep : Server.insertPeers s ((o, p) :: rest) =
        Server.insertPeers (Server.insertPeer s (o, p)) rest := by
      simp [Server.insertPeers]
    have hlinks1 : (Server.insertPeer s (o, p)).links =
        insertL (insertL s.links (slabInsert s.pumps p).2 o) o (slabInsert s.pumps p).2 := rfl
    have hpumps1 : (Server.insertPeer s (o, p)).pumps = (slabInsert s.pumps p).1 := rfl
    rw [hstep]
    apply ih
    · rw [hlinks1]
      exact symm_insert_pair hs hne htk holink htv hov
    · intro a b hab
      rw [hlinks1, getL_insert_pair] at hab
      simp only [hpumps1]
      by_cases hao : a = o
      · rw [if_pos hao] at hab
        cases hab
        constructor
        · rw [hao]
          exact hmono o hoocc
        · simp [slabInsert_get_self]
      · rw [if_neg hao] at hab
        by_cases hat : a = (slabInsert s.pumps p).2
        · rw [if_pos hat] at hab
          cases hab
          constructor
          · rw [hat]
            simp [slabInsert_get_self]
          · exact hmono o hoocc
        · rw [if_neg hat] at hab
          obtain ⟨ha, hb⟩ := hl a b hab
          exact ⟨hmono a ha, hmono b hb⟩
    · intro op2 hop2
      obtain ⟨ho2, hl2⟩ := hok op2 (List.mem_cons_of_mem _ hop2)
      refine ⟨by rw [hpumps1]; exact hmono _ ho2, ?_⟩
      rw [hlinks1, getL_insert_pair]
      have ho2o : op2.1 ≠ o := by
        intro he
        have : o ∈ rest.map Prod.fst := he ▸ List.mem_map_of_mem Prod.fst hop2
        exact (List.nodup_cons.mp (by simpa using hnd)).1 this
      have ho2i : op2.1 ≠ (slabInsert s.pumps p).2 := by
        intro he
        rw [he, hfresh] at ho2
        cases ho2
      rw [if_neg ho2o, if_neg ho2i]
      exact hl2
    · exact (List.nodup_cons.mp (by simpa using hnd)).2

theorem mem_npInsert {l : List (Nat × Pump)} {k : Nat} {v : Pump} :
    ∀ op ∈ npInsert l k v, op ∈ l ∨ op = (k, v) := by
  intro op hop
  rcases List.mem_append.mp hop with h | h
  · exact Or.inl (List.mem_of_mem_filter h)
  · simp at h
    exact Or.inr h

theorem npInsert_keys_nodup {l : List (Nat × Pump)} {k : Nat} {v : Pump}
    (h : (l.map Prod.fst).Nodup) : ((npInsert l k v).map Prod.fst).Nodup := by
  unfold npInsert
  rw [List.map_append]
  have hsub : List.Sublist ((l.filter (fun q => q.1 ≠ k)).map Prod.fst) (l.map Prod.fst) :=
    (List.filter_sublist l).map Prod.fst
  refine List.Nodup.append (h.sublist hsub) (by simp) ?_
  intro x hx hy
  simp at hy
  subst hy
  obtain ⟨q, hq, hqk⟩ := List.mem_map.mp hx
  have := List.of_mem_filter hq
  simp [hqk] at this

theorem scanBatch_peers {s : Server} {evs : List Ev} {r : Server × Batch}
    (hspawn : ∀ ev ∈ evs, ev.spawn.isSome = true → ev.token ≠ ROOT_TOKEN →
      getL s.links ev.token = none)
    (h : Server.scanBatch s evs = some r) :
    (∀ x, (slabGet s.pumps x).isSome = true → (slabGet r.1.pumps x).isSome = true) ∧
    (∀ op ∈ r.2.newPeers, (slabGet r.1.pumps op.1).isSome = true ∧
      getL s.links op.1 = none) ∧
    (r.2.newPeers.map Prod.fst).Nodup := by
  refine foldlM_option_inv Server.scanEvent
    (fun x => (∀ t, (slabGet s.pumps t).isSome = true →
        (slabGet x.1.pumps t).isSome = true) ∧
      (∀ op ∈ x.2.newPeers, (slabGet x.1.pumps op.1).isSome = true ∧
        getL s.links op.1 = none) ∧
      (x.2.newPeers.map Prod.fst).Nodup)
    evs (s, Batch.empty) r ?_ h ⟨fun t ht => ht, by simp [Batch.empty], by simp [Batch.empty]⟩
  intro ev hev c c' hc hm
  obtain ⟨m1, m2, m3⟩ := hm
  obtain ⟨_, _, _, e4, e5⟩ := scanEvent_effects hc
  refine ⟨fun t ht => e4 t (m1 t ht), ?_, ?_⟩
  · intro op hop
    rcases e5 with he | ⟨p, hsp, hroot, hocc, hnp⟩
    · rw [he] at hop
      obtain ⟨h1, h2⟩ := m2 op hop
      exact ⟨e4 op.1 h1, h2⟩
    · rw [hnp] at hop
      rcases mem_npInsert op hop with hold | hnew
      · obtain ⟨h1, h2⟩ := m2 op hold
        exact ⟨e4 op.1 h1, h2⟩
      · subst hnew
        refine ⟨e4 ev.token hocc, ?_⟩
        exact hspawn ev hev (by rw [hsp]; rfl) hroot
  · rcases e5 with he | ⟨p, hsp, hroot, hocc, hnp⟩
    · rw [he]
      exact m3
    · rw [hnp]
      exact npInsert_keys_nodup m3

theorem foldlM_drop_preserves {l : List Nat} {s s' : Server}
    (h : List.foldlM Server.drop_pump s l = some s')
    (hs : Symm s.links) (hl : LinkedLive s) : Symm s'.links ∧ LinkedLive s' :=
  foldlM_option_inv Server.drop_pump (fun c => Symm c.links ∧ LinkedLive c) l s s'
    (fun t _ c c' hc hm => drop_pump_preserves_linkinv hm.1 hm.2 hc) h ⟨hs, hl⟩

theorem drop_zombies_preserves_linkinv {s s' : Server}
    (h : s.drop_zombies = some s')
    (hs : Symm s.links) (hl : LinkedLive s) : Symm s'.links ∧ LinkedLive s' := by
  unfold Server.drop_zombies at h
  split at h
  · cases h
    exact ⟨hs, hl⟩
  · exact foldlM_drop_preserves h hs hl

theorem dispatch_preserves_linkinv {s s' : Server} {evs : List Ev}
    (hs : Symm s.links) (hl : LinkedLive s)
    (hspawn : ∀ ev ∈ evs, ev.spawn.isSome = true → ev.token ≠ ROOT_TOKEN →
      getL s.links ev.token = none)
    (hd : s.dispatch evs = some s') : Symm s'.links ∧ LinkedLive s' := by
  unfold Server.dispatch at hd
  simp only [Option.bind_eq_bind] at hd
  rcases Option.bind_eq_some.mp hd with ⟨r, hscan, hd⟩
  rcases Option.bind_eq_some.mp hd with ⟨s2, hz, hd⟩
  obtain ⟨el, _, _⟩ := scanBatch_effects hscan
  obtain ⟨m1, m2, m3⟩ := scanBatch_peers hspawn hscan
  have hsymr : Symm r.1.links := by rw [el]; exact hs
  have hlr : LinkedLive r.1 := by
    intro a b hab
    rw [el] at hab
    obtain ⟨ha, hb⟩ := hl a b hab
    exact ⟨m1 a ha, m1 b hb⟩
  have hok : ∀ op ∈ r.2.newPeers,
      (slabGet r.1.pumps op.1).isSome = true ∧ getL r.1.links op.1 = none := by
    intro op hop
    obtain ⟨h1, h2⟩ := m2 op hop
    refine ⟨h1, ?_⟩
    rw [el]
    exact h2
  obtain ⟨hsym1, hl1⟩ := insertPeers_preserves r.2.newPeers r.1 hsymr hlr hok m3
  obtain ⟨hsym2, hl2⟩ := drop_zombies_preserves_linkinv hz hsym1 hl1
  exact foldlM_drop_preserves hd hsym2 hl2

/-- C3.  Link symmetry between dispatch cycles: from any state whose link
table is symmetric and refers only to live endpoints, and for any batch in
which peer spawns come only from unlinked tokens (the engine spawns a peer
only while completing the handshake, before any link exists), a completed
dispatch cycle yields a link table satisfying `links[a] = b` iff
`links[b] = a`; within the cycle the scan leaves links untouched and every
removal erases both directions of a pair at once. -/
theorem link_symmetry_between_cycles (s : Server) (evs : List Ev) (s' : Server)
    (hs : Symm s.links) (hl : LinkedLive s)
    (hspawn : ∀ ev ∈ evs, ev.spawn.isSome = true → ev.token ≠ ROOT_TOKEN →
      getL s.links ev.token = none)
    (hd : s.dispatch evs = some s') :
    ∀ a b, getL s'.links a = some b ↔ getL s'.links b = some a := by
  obtain ⟨hsym, _⟩ := dispatch_preserves_linkinv hs hl hspawn hd
  exact fun a b => ⟨hsym a b, hsym b a⟩

/-- C3 witness: one endpoint whose drain spawns a peer; the resulting
two-entry link table is symmetric. -/
theorem link_symmetry_between_cycles_witness :
    getL sSpawned.links 0 = some 1 ↔ getL sSpawned.links 1 = some 0 :=
  link_symmetry_between_cycles sOne [evSpawn] sSpawned
    (by intro a b hab; simp [sOne, getL] at hab)
    (by intro a b hab; simp [sOne, getL] at hab)
    (by
      intro ev hev h1 h2
      simp only [List.mem_singleton] at hev
      subst hev
      rfl)
    (by decide) 0 1

theorem foldlM_drop_zombie_spec :
    ∀ (Z : List Nat) (s : Server),
      Z.Nodup →
      (∀ t ∈ Z, (slabGet s.pumps t).isSome = true) →
      (∀ t ∈ Z, ∀ u, getL s.links t = some u →
        u ∉ Z ∧ (slabGet s.pumps u).isSome = true) →
      ∃ s', List.foldlM Server.drop_pump s Z = some s' ∧
        (∀ t ∈ Z, slabGet s'.pumps t = none) ∧
        (∀ t ∈ Z, ∀ u, getL s.links t = some u →
          u ∈ s'.zombie ∧ (slabGet s'.pumps u).isSome = true) ∧
        (∀ x, slabGet s.pumps x = none → slabGet s'.pumps x = none) ∧
        (∀ x ∈ s.zombie, x ∈ s'.zombie) ∧
        (∀ x, x ∉ Z → (slabGet s.pumps x).isSome = true →
          (slabGet s'.pumps x).isSome = true) ∧
        (∀ x ∈ s'.zombie, x ∈ s.zombie ∨ ∃ t ∈ Z, getL s.links t = some x) := by
  intro Z
  induction Z with
  | nil =>
    intro s _ _ _
    refine ⟨s, rfl, by simp, by simp, fun x hx => hx, fun x hx => hx,
      fun x _ hx => hx, fun x hx => Or.inl hx⟩
  | cons t rest ih =>
    intro s hnd hocc hlink
    have htmem : t ∈ t :: rest := List.mem_cons_self t rest
    have htocc := hocc t htmem
    obtain ⟨p, hp⟩ := Option.isSome_iff_exists.mp htocc
    have htlt : t < s.pumps.length := slabGet_some_lt hp
    have hrm : slabRemove s.pumps t = some (s.pumps.set t none) := by
      unfold slabRemove
      rw [hp]
    have htnotrest : t ∉ rest := (List.nodup_cons.mp hnd).1
    have hndrest : rest.Nodup := (List.nodup_cons.mp hnd).2
    cases hgl : getL s.links t with
    | some u =>
      obtain ⟨hunZ, huocc⟩ := hlink t htmem u hgl
      have hunt : u ≠ t := fun he => hunZ (he ▸ htmem)
      have hunrest : u ∉ rest := fun he => hunZ (List.mem_cons_of_mem t he)
      have hstep : Server.drop_pump s t = some { s with
          pumps := s.pumps.set t none
          registered := s.registered.erase t
          dropLog := s.dropLog ++ [t]
          links := eraseKey (eraseKey s.links t) u
          zombie := setInsert s.zombie u } := by
        unfold Server.drop_pump
        rw [hrm]
        dsimp only []
        rw [hgl]
      set s1 : Server := { s with
          pumps := s.pumps.set t none
          registered := s.registered.erase t
          dropLog := s.dropLog ++ [t]
          links := eraseKey (eraseKey s.links t) u
          zombie := setInsert s.zombie u } with hs1
      have hgl1 : ∀ t2, t2 ≠ t → t2 ≠ u → getL s1.links t2 = getL s.links t2 := by
        intro t2 h2t h2u
        rw [hs1]
        dsimp only []
        rw [getL_eraseKey, getL_eraseKey, if_neg h2u, if_neg h2t]
      have hget1 : ∀ x, x ≠ t → slabGet s1.pumps x = slabGet s.pumps x := by
        intro x hx
        rw [hs1]
        exact slabGet_set_ne _ _ (fun he : t = x => hx he.symm)
      obtain ⟨s', hfold, c1, c2, c3, c4, c5, c6⟩ := ih s1 hndrest
        (by
          intro t2 h2
          rw [hget1 t2 (fun he => htnotrest (he ▸ h2))]
          exact hocc t2 (List.mem_cons_of_mem t h2))
        (by
          intro t2 h2 u2 hu2
          have h2t : t2 ≠ t := fun he => htnotrest (he ▸ h2)
          have h2u : t2 ≠ u := fun he => hunrest (he ▸ h2)
          rw [hgl1 t2 h2t h2u] at hu2
          obtain ⟨hu2nZ, hu2occ⟩ := hlink t2 (List.mem_cons_of_mem t h2) u2 hu2
          have hu2t : u2 ≠ t := fun he => hu2nZ (he ▸ htmem)
          refine ⟨fun he => hu2nZ (List.mem_cons_of_mem t he), ?_⟩
          rw [hget1 u2 hu2t]
          exact hu2occ)
      refine ⟨s', ?_, ?_, ?_, ?_, ?_, ?_, ?_⟩
      · simp only [List.foldlM, Option.bind_eq_bind]
        rw [hstep]
        simpa using hfold
      · intro t0 h0
        rcases List.mem_cons.mp h0 with rfl | h0
        · apply c3
          rw [hs1]
          exact slabGet_set_self none htlt
        · exact c1 t0 h0
      · intro t0 h0 u0 hu0
        rcases List.mem_cons.mp h0 with rfl | h0
        · rw [hgl] at hu0
          cases hu0
          constructor
          · apply c4
            rw [hs1]
            dsimp only []
            exact (mem_setInsert _ _ _).mpr (Or.inr rfl)
          · apply c5 u hunrest
            rw [hget1 u hunt]
            exact huocc
        · have h0t : t0 ≠ t := fun he => htnotrest (he ▸ h0)
          have h0u : t0 ≠ u := fun he => hunrest (he ▸ h0)
          rw [← hgl1 t0 h0t h0u] at hu0
          exact c2 t0 h0 u0 hu0
      · intro x hx
        apply c3
        by_cases hxt : x = t
        · rw [hs1, hxt]
          exact slabGet_set_self none htlt
        · rw [hget1 x hxt]
          exact hx
      · intro x hx
        apply c4
        rw [hs1]
        dsimp only []
        exact (mem_setInsert _ _ _).mpr (Or.inl hx)
      · intro x hx hocx
        have hxt : x ≠ t := fun he => hx (he ▸ htmem)
        have hxrest : x ∉ rest := fun he => hx (List.mem_cons_of_mem t he)
        apply c5 x hxrest
        rw [hget1 x hxt]
        exact hocx
      · intro x hx
        rcases c6 x hx with hx1 | ⟨t2, h2, hu2⟩
        · rw [hs1] at hx1
          dsimp only [] at hx1
          rcases (mem_setInsert _ _ _).mp hx1 with hx2 | rfl
          · exact Or.inl hx2
          · exact Or.inr ⟨t, htmem, hgl⟩
        · have h2t : t2 ≠ t := fun he => htnotrest (he ▸ h2)
          have h2u : t2 ≠ u := fun he => hunrest (he ▸ h2)
          rw [hgl1 t2 h2t h2u] at hu2
          exact Or.inr ⟨t2, List.mem_cons_of_mem t h2, hu2⟩
    | none =>
      have hek : eraseKey s.links t = s.links := eraseKey_of_not_key hgl
      have hstep : Server.drop_pump s t = some { s with
          pumps := s.pumps.set t none
          registered := s.registered.erase t
          dropLog := s.dropLog ++ [t]
          links := s.links } := by
        unfold Server.drop_pump
        rw [hrm]
        dsimp only []
        rw [hgl, hek]
      set s1 : Server := { s with
          pumps := s.pumps.set t none
          registered := s.registered.erase t
          dropLog := s.dropLog ++ [t]
          links := s.links } with hs1
      have hget1 : ∀ x, x ≠ t → slabGet s1.pumps x = slabGet s.pumps x := by
        intro x hx
        rw [hs1]
        exact slabGet_set_ne _ _ (fun he : t = x => hx he.symm)
      obtain ⟨s', hfold, c1, c2, c3, c4, c5, c6⟩ := ih s1 hndrest
        (by
          intro t2 h2
          rw [hget1 t2 (fun he => htnotrest (he ▸ h2))]
          exact hocc t2 (List.mem_cons_of_mem t h2))
        (by
          intro t2 h2 u2 hu2
          obtain ⟨hu2nZ, hu2occ⟩ := hlink t2 (List.mem_cons_of_mem t h2) u2 hu2
          have hu2t : u2 ≠ t := fun he => hu2nZ (he ▸ htmem)
          refine ⟨fun he => hu2nZ (List.mem_cons_of_mem t he), ?_⟩
          rw [hget1 u2 hu2t]
          exact hu2occ)
      refine ⟨s', ?_, ?_, ?_, ?_, ?_, ?_, ?_⟩
      · simp only [List.foldlM, Option.bind_eq_bind]
        rw [hstep]
        simpa using hfold
      · intro t0 h0
        rcases List.mem_cons.mp h0 with rfl | h0
        · apply c3
          rw [hs1]
          exact slabGet_set_self none htlt
        · exact c1 t0 h0
      · intro t0 h0 u0 hu0
        rcases List.mem_cons.mp h0 with rfl | h0
        · rw [hgl] at hu0
          cases hu0
        · exact c2 t0 h0 u0 hu0
      · intro x hx
        apply c3
        by_cases hxt : x = t
        · rw [hs1, hxt]
          exact slabGet_set_self none htlt
        · rw [hget1 x hxt]
          exact hx
      · exact c4
      · intro x hx hocx
        have hxt : x ≠ t := fun he => hx (he ▸ htmem)
        have hxrest : x ∉ rest := fun he => hx (List.mem_cons_of_mem t he)
        apply c5 x hxrest
        rw [hget1 x hxt]
        exact hocx
      · intro x hx
        rcases c6 x hx with hx1 | ⟨t2, h2, hu2⟩
        · exact Or.inl hx1
        · exact Or.inr ⟨t2, List.mem_cons_of_mem t h2, hu2⟩

/-- C10.  `drop_zombies` snapshots the zombie set and clears it before any
removal: the drain succeeds and removes exactly the snapshotted tokens;
every token newly zombified during the drain (the peer of a dropped zombie
that had acquired a link) is not itself dropped in this drain — its slot
stays occupied — and is preserved in the zombie set for the next dispatch
cycle, which afterwards holds exactly those newly added peers. -/
theorem drop_zombies_snapshot_defers (s : Server)
    (hnd : s.zombie.Nodup)
    (hocc : ∀ t ∈ s.zombie, (slabGet s.pumps t).isSome = true)
    (hlink : ∀ t ∈ s.zombie, ∀ u, getL s.links t = some u →
      u ∉ s.zombie ∧ (slabGet s.pumps u).isSome = true) :
    ∃ s', s.drop_zombies = some s' ∧
      (∀ t ∈ s.zombie, slabGet s'.pumps t = none) ∧
      (∀ t ∈ s.zombie, ∀ u, getL s.links t = some u →
        u ∈ s'.zombie ∧ (slabGet s'.pumps u).isSome = true) ∧
      (∀ x ∈ s'.zombie, ∃ t ∈ s.zombie, getL s.links t = some x) := by
  unfold Server.drop_zombies
  by_cases hz : s.zombie = []
  · rw [if_pos hz]
    exact ⟨s, rfl, by simp [hz], by simp [hz], fun x hx => ⟨x, hx, by simp [hz] at hx⟩⟩
  · rw [if_neg hz]
    obtain ⟨s', hfold, c1, c2, _, _, _, c6⟩ :=
      foldlM_drop_zombie_spec s.zombie { s with zombie := [] } hnd hocc hlink
    refine ⟨s', hfold, c1, c2, ?_⟩
    intro x hx
    rcases c6 x hx with h0 | h
    · simp at h0
    · exact h

/-- C10 witness: a zombified token linked to a live peer; after the drain
the zombie's slot is vacant while the peer is zombified, still occupied,
and left for the next cycle. -/
theorem drop_zombies_snapshot_defers_witness :
    ∃ s', sZombie.drop_zombies = some s' ∧
      (∀ t ∈ sZombie.zombie, slabGet s'.pumps t = none) ∧
      (∀ t ∈ sZombie.zombie, ∀ u, getL sZombie.links t = some u →
        u ∈ s'.zombie ∧ (slabGet s'.pumps u).isSome = true) ∧
      (∀ x ∈ s'.zombie, ∃ t ∈ sZombie.zombie, getL sZombie.links t = some x) :=
  drop_zombies_snapshot_defers sZombie (by decide) (by decide)
    (by
      intro t ht u hu
      simp only [sZombie, List.mem_singleton] at ht
      subst ht
      simp [sZombie, getL] at hu
      subst hu
      exact ⟨by decide, by decide⟩)

/-- C8 witness: fanning out two drained bytes appends both to the peer's
outbound buffer and re-registers the peer. -/
theorem fan_out_moves_all_bytes_witness :
    (pumpOut.outBuf = [] →
      ∃ s1, sFan.fan_out 0 1 = some (s1, false) ∧
        slabGet s1.pumps 1 = some pumpPeer ∧
        s1.registered = sFan.registered ∧ s1.links = sFan.links ∧
        s1.zombie = sFan.zombie) ∧
    (pumpOut.outBuf ≠ [] →
      ∃ s1, sFan.fan_out 0 1 = some (s1, true) ∧
        slabGet s1.pumps 1 = some { pumpPeer with
          sendBuf := pumpPeer.sendBuf ++ pumpOut.outBuf } ∧
        slabGet s1.pumps 0 = some { pumpOut with outBuf := [] } ∧
        1 ∈ s1.registered) :=
  fan_out_moves_all_bytes sFan 0 1 pumpOut pumpPeer (by decide) (by decide) (by decide)
